import Mathlib

/-
Verification of the Umbra Builder core (docs/s/js-max/builder/index.js):
tag registry and directive parsing, dependency resolution, line tagging,
compilation and size measurement.

Modelling conventions:
* JS strings are Lean `String`s; string scanning (split on / +/ and
  /[\r\n]+/, trim, startsWith) is implemented over the underlying
  `List Char` so that everything reduces in the kernel.
* JS objects are Lean structures.  The `script` back-pointer stored on each
  JS `Tag` is only ever used to reach the owning registry (`tag.script.tags`),
  so the registry is passed explicitly instead.
* JS reference equality between tags is modelled by structural equality.
  Registries built by `getTags` have pairwise distinct tag names (the
  find-or-create step never duplicates a name), and every tag object the
  algorithms compare is obtained by a name lookup in the same registry, so
  on such registries structural equality coincides with reference equality.
* An out-of-range index into the token array of a split comment yields JS
  `undefined`; it is modelled as `""`.  `undefined` and `""` behave the same
  way in every comparison the builder performs on well-formed input (neither
  equals "UTAGDEF"/"UTAGSET"/a mode name, and neither resolves in a registry
  whose tags all have non-empty names).
* The asynchronous parts (fetching in `loadExternal`, the minifier and
  formatter invoked by `compile`) are injected collaborators: the transforms
  are parameters of type `String → Option String` (`none` = failure, which
  propagates), and `loadExternal`'s completion-counter join is modelled as
  the sequence of counter values its increments produce.
-/

namespace Umbra

/-! ## Character and string helpers (JS split / trim) -/

def isSpaceChar (c : Char) : Bool := c == ' '

def isNlChar (c : Char) : Bool := c == '\r' || c == '\n'

def isWsChar (c : Char) : Bool := c == ' ' || c == '\t' || c == '\n' || c == '\r'

/-- JS `String.prototype.trim` on the character list. -/
def trimChars (l : List Char) : List Char :=
  ((l.dropWhile isWsChar).reverse.dropWhile isWsChar).reverse

def trimStr (s : String) : String := String.mk (trimChars s.data)

/-- Split on maximal runs of separator characters, keeping the empty pieces
a leading or trailing run produces — exactly the behaviour of JS
`split(/sep+/)`.  `prevSep` records whether the previous character belonged
to a separator run. -/
def splitRunsAux (sep : Char → Bool) : List Char → List Char → Bool → List (List Char)
  | [], acc, _ => [acc.reverse]
  | c :: rest, acc, prevSep =>
    if sep c then
      if prevSep then splitRunsAux sep rest acc prevSep
      else acc.reverse :: splitRunsAux sep rest [] true
    else splitRunsAux sep rest (c :: acc) false

def splitRuns (sep : Char → Bool) (s : String) : List String :=
  (splitRunsAux sep s.data [] false).map String.mk

/-- JS `split(/ +/)`. -/
def splitSpaces (s : String) : List String := splitRuns isSpaceChar s

/-- JS `split(/[\r\n]+/)`. -/
def splitNewlines (s : String) : List String := splitRuns isNlChar s

/-- JS `Array.prototype.join(" ")`. -/
def joinSpace : List String → String
  | [] => ""
  | [s] => s
  | s :: rest => s ++ " " ++ joinSpace rest

/-! ## Data model -/

/-- class Tag: name, description, size, requiredTagNames, link.
The JS `script` back-pointer is replaced by passing the registry
explicitly. -/
structure Tag where
  name : String
  description : String := ""
  size : Int := 0
  requiredTagNames : List String := []
  link : String := ""
deriving DecidableEq, Repr

/-- LineTag.Mode: AND = 0, OR = 1. -/
inductive Mode where
  | AND
  | OR
deriving DecidableEq, Repr

/-- class LineTag.  `LineTag.Mode[mode]` on an unrecognized mode string is JS
`undefined`, modelled as `none`. -/
structure LineTag where
  tag : Tag
  mode : Option Mode
deriving DecidableEq, Repr

/-- class Line: code and comment word streams plus the tag associations. -/
structure Line where
  code : String := ""
  comment : String := ""
  tags : List LineTag := []
deriving DecidableEq, Repr

/-- `this.tags.find((tag) => tag.name == n)`. -/
def findTag (tags : List Tag) (n : String) : Option Tag :=
  tags.find? (fun t => t.name == n)

/-! ## Script constructor (tokenizing into code and comment streams) -/

/-- One iteration of the constructor's word loop: trim the word, recognise a
`//`, `/*` or `*/` marker prefix (in that order, at most one), strip it,
drop the word if nothing is left, and otherwise append it (plus a space) to
the comment or the code stream according to the updated flags. -/
def procWords : Bool → Bool → List Char → List Char → List (List Char) →
    List Char × List Char × Bool
  | _, inMulti, code, comment, [] => (code, comment, inMulti)
  | inComment, inMulti, code, comment, w :: ws =>
    let w := trimChars w
    let st :=
      if w.take 2 = ['/', '/'] then (true, inMulti, w.drop 2)
      else if w.take 2 = ['/', '*'] then (inComment, true, w.drop 2)
      else if w.take 2 = ['*', '/'] then (inComment, false, w.drop 2)
      else (inComment, inMulti, w)
    match st with
    | (ic, im, w') =>
      if w' = [] then procWords ic im code comment ws
      else if ic || im then procWords ic im code (comment ++ w' ++ [' ']) ws
      else procWords ic im (code ++ w' ++ [' ']) comment ws

/-- Build one `Line` from a raw input line, threading the multi-line-comment
flag. -/
def parseLine (inMulti : Bool) (rawLine : String) : Line × Bool :=
  let words := (splitSpaces (trimStr rawLine)).map String.data
  match procWords false inMulti [] [] words with
  | (code, comment, inMulti') => (⟨String.mk code, String.mk comment, []⟩, inMulti')

def parseGo (inMulti : Bool) : List String → List Line
  | [] => []
  | l :: ls =>
    match parseLine inMulti l with
    | (line, im) => line :: parseGo im ls

/-- constructor(script): split on /[\r\n]+/ and tokenize each line. -/
def Script.parse (text : String) : List Line := parseGo false (splitNewlines text)

/-! ## getTags (UTAGDEF directive scan) -/

def commentTokens (line : Line) : List String := splitSpaces line.comment

/-- `comment.slice(3).join(" ").trim()`. -/
def directiveData (c : List String) : String := trimStr (joinSpace (c.drop 3))

/-- Find-or-create step: a UTAGDEF line always ensures a tag of the given
name exists before the property dispatch. -/
def ensureTag (reg : List Tag) (n : String) : List Tag :=
  if (findTag reg n).isSome then reg else reg ++ [{ name := n }]

/-- Mutate the first tag of the given name (the one `find` returns). -/
def updateFirst (reg : List Tag) (n : String) (f : Tag → Tag) : List Tag :=
  match reg with
  | [] => []
  | t :: ts => if t.name == n then f t :: ts else t :: updateFirst ts n f

/-- Processing of a single line inside `getTags`: the comment tokens give
operator, property, tag name and data; a UTAGDEF line first finds-or-creates
the subject tag (`ensureTag`) and then applies the property mutation to it. -/
def getTagsStep (reg : List Tag) (line : Line) : List Tag :=
  if (commentTokens line).getD 0 "" == "UTAGDEF" then
    match (commentTokens line).getD 1 "" with
    | "DESC" =>
      updateFirst (ensureTag reg ((commentTokens line).getD 2 "")) ((commentTokens line).getD 2 "")
        (fun t => { t with description := directiveData (commentTokens line) })
    | "REQU" =>
      match findTag (ensureTag reg ((commentTokens line).getD 2 ""))
          (directiveData (commentTokens line)) with
      | none =>
        -- console.warn(`${tag} is unable to require tag ...`); skip
        ensureTag reg ((commentTokens line).getD 2 "")
      | some rt =>
        updateFirst (ensureTag reg ((commentTokens line).getD 2 ""))
          ((commentTokens line).getD 2 "")
          (fun t => { t with requiredTagNames := t.requiredTagNames ++ [rt.name] })
    | "LINK" =>
      updateFirst (ensureTag reg ((commentTokens line).getD 2 "")) ((commentTokens line).getD 2 "")
        (fun t => { t with link := directiveData (commentTokens line) })
    | _ =>
      -- "SIZE" (deprecated) and unknown properties only log
      ensureTag reg ((commentTokens line).getD 2 "")
  else reg

/-- getTags(): scan every line's comment, building the registry. -/
def Script.getTags (lines : List Line) : List Tag := lines.foldl getTagsStep []

/-! ## dependencies

`Tag.prototype.dependencies(includeSelf, tag, output)` processes the
worklist `[tag, REQUIRED?]`; every required-tag name of a newly added tag is
resolved and expanded through a recursive call (which seeds REQUIRED again).
The JS recursion needs no fuel; the Lean version takes a fuel argument, with
the requirement loop parameterized by the recursive call so that the closure
is structural recursion on the fuel (and hence reduces in the kernel), and
`registry.length + 2` is proved sufficient below, which is the termination
statement. -/

/-- The loop over a freshly added tag's `requiredTagNames`: unresolved names
are skipped with a console warning, resolved ones are expanded through `rec`
(the recursive `dependencies` call at the remaining fuel). -/
def depsNamesH (reg : List Tag) (rec : Tag → List Tag → List Tag) :
    List String → List Tag → List Tag
  | [], out => out
  | n :: ns, out =>
    match findTag reg n with
    | none => depsNamesH reg rec ns out
    | some r => depsNamesH reg rec ns (rec r out)

/-- One call of `dependencies(true, t, out)`: process `t`, then the tag
literally named REQUIRED if one exists. -/
def depsGo (reg : List Tag) : Nat → Tag → List Tag → List Tag
  | 0, _, out => out
  | fuel + 1, t, out =>
    let out1 := if t ∈ out then out
      else depsNamesH reg (fun r o => depsGo reg fuel r o) t.requiredTagNames (out ++ [t])
    match findTag reg "REQUIRED" with
    | none => out1
    | some r =>
      if r ∈ out1 then out1
      else depsNamesH reg (fun r o => depsGo reg fuel r o) r.requiredTagNames (out1 ++ [r])

/-- The requirement loop with the recursive call fixed at the given fuel. -/
def depsNames (reg : List Tag) (fuel : Nat) (ns : List String) (out : List Tag) : List Tag :=
  depsNamesH reg (fun r o => depsGo reg fuel r o) ns out

/-- dependencies(includeSelf = true): run the closure with sufficient fuel
and, when `includeSelf` is false, filter out the root tag itself. -/
def Tag.dependencies (reg : List Tag) (t : Tag) (includeSelf : Bool) : List Tag :=
  let out := depsGo reg (reg.length + 2) t []
  if includeSelf then out else out.filter (fun x => decide (x ≠ t))

/-! ## tagLines (UTAGSET directive scan) -/

/-- `LineTag.Mode[mode]`. -/
def parseMode (s : String) : Option Mode :=
  if s == "AND" then some Mode.AND else if s == "OR" then some Mode.OR else none

/-- Processing of one line inside `tagLines`: returns the updated line and
the updated open-block stack (`multilineTags`).  An unresolvable tag name
hits `continue`, which skips the rest of the loop body for this line — in
particular the attachment of the open-block stack. -/
def tagLinesStep (tags : List Tag) (stack : List LineTag) (line : Line) :
    Line × List LineTag :=
  if (commentTokens line).getD 0 "" == "UTAGSET" then
    match findTag tags ((commentTokens line).getD 2 "") with
    | none => (line, stack) -- console.error(`Failed to set line tag ...`); continue
    | some tag =>
      match (commentTokens line).getD 1 "" with
      | "START" =>
        ({ line with tags := line.tags ++
            (stack ++ [⟨tag, parseMode ((commentTokens line).getD 3 "")⟩]) },
          stack ++ [⟨tag, parseMode ((commentTokens line).getD 3 "")⟩])
      | "END" =>
        ({ line with tags := line.tags ++
            ([⟨tag, parseMode ((commentTokens line).getD 3 "")⟩] ++
              stack.filter (fun lt => !(lt.tag.name == tag.name))) },
          stack.filter (fun lt => !(lt.tag.name == tag.name)))
      | "LINE" =>
        ({ line with tags := line.tags ++
            ([⟨tag, parseMode ((commentTokens line).getD 3 "")⟩] ++ stack) },
          stack)
      | _ =>
        -- console.warn(`Skipping unknown property ...`); fall through to attach
        ({ line with tags := line.tags ++ stack }, stack)
  else ({ line with tags := line.tags ++ stack }, stack)

/-- The condition under which `tagLines` `continue`s past a line entirely:
a UTAGSET operator whose tag name does not resolve in the registry. -/
def tagLinesSkips (tags : List Tag) (line : Line) : Bool :=
  ((commentTokens line).getD 0 "" == "UTAGSET") &&
    (findTag tags ((commentTokens line).getD 2 "")).isNone

def tagLinesGo (tags : List Tag) (stack : List LineTag) : List Line → List Line
  | [] => []
  | l :: ls =>
    match tagLinesStep tags stack l with
    | (l', stack') => l' :: tagLinesGo tags stack' ls

/-- tagLines(): thread the open-block stack through all lines. -/
def Script.tagLines (tags : List Tag) (lines : List Line) : List Line :=
  tagLinesGo tags [] lines

/-! ## compile -/

/-- The per-line inclusion loop of `compile`: `includeLine` starts false; an
AND association sets it to the membership test and short-circuits on a miss;
any other association (OR or an undefined mode) sets it on a hit and leaves
it unchanged on a miss. -/
def evalLineTags (included : List String) : List LineTag → Bool → Bool
  | [], inc => inc
  | lt :: rest, inc =>
    if lt.mode = some Mode.AND then
      if lt.tag.name ∈ included then evalLineTags included rest true
      else false
    else
      if lt.tag.name ∈ included then evalLineTags included rest true
      else evalLineTags included rest inc

/-- Rendering of one included line: the code, then — only when not
uglifying and the comment is non-empty — a space (if there was code) and the
comment re-prefixed with `// `, then a newline. -/
def renderLine (uglified : Bool) (line : Line) : String :=
  line.code ++
    (if !uglified && !(line.comment == "") then
      (if line.code == "" then "" else " ") ++ "// " ++ line.comment
    else "") ++ "\n"

/-- The filtering half of `compile`: concatenate the rendering of every line
whose association list evaluates to inclusion. -/
def compileText (lines : List Line) (included : List String) (uglified : Bool) : String :=
  match lines with
  | [] => ""
  | line :: rest =>
    (if evalLineTags included line.tags false then renderLine uglified line else "") ++
      compileText rest included uglified

/-- compile(includedTagNames, uglified = true, beautified = false): filter,
then the injected minifier (when uglified) and formatter (when beautified);
a transform failure propagates. -/
def Script.compile (lines : List Line) (included : List String)
    (uglified beautified : Bool) (minifyF formatF : String → Option String) :
    Option String :=
  let filtered := compileText lines included uglified
  match (if uglified then minifyF filtered else some filtered) with
  | none => none
  | some t => if beautified then formatF t else some t

/-! ## measureTags -/

/-- The loop of `measureTags` from index `i`: for each tag, compile with the
names of `dependencies(tag)` and of `dependencies(tag, false)` — with
`compile`'s default flags, i.e. uglified and not beautified — and store the
length difference as the tag's size.  The registry is threaded because each
iteration mutates the tag's size in place.  `n` counts the remaining
iterations (`reg.length - i`, invariant under the `set` updates) so that the
recursion is structural; the loop exits exactly when the index runs off the
registry. -/
def measureTagsGo (lines : List Line) (minifyF : String → Option String) :
    Nat → Nat → List Tag → Option (List Tag)
  | 0, _, reg => some reg
  | n + 1, i, reg =>
    match reg.get? i with
    | none => some reg
    | some tag =>
      match Script.compile lines ((Tag.dependencies reg tag true).map Tag.name)
          true false minifyF some with
      | none => none
      | some a =>
        match Script.compile lines ((Tag.dependencies reg tag false).map Tag.name)
            true false minifyF some with
        | none => none
        | some b =>
          measureTagsGo lines minifyF n (i + 1)
            (reg.set i { tag with size := (a.length : Int) - (b.length : Int) })

/-- measureTags(). -/
def Script.measureTags (lines : List Line) (minifyF : String → Option String)
    (reg : List Tag) : Option (List Tag) :=
  measureTagsGo lines minifyF reg.length 0 reg

/-- The size `measureTags` assigns to a tag, in closed form over a fixed
registry: the length of the minified compilation of the tag's inclusive
dependency names minus that of its exclusive dependency names. -/
def codeMeasuredSize (lines : List Line) (minifyF : String → Option String)
    (reg : List Tag) (t : Tag) : Int :=
  (((minifyF (compileText lines ((Tag.dependencies reg t true).map Tag.name) true)).getD
      "").length : Int) -
    (((minifyF (compileText lines ((Tag.dependencies reg t false).map Tag.name) true)).getD
      "").length : Int)

/-- The size C2 claims `measureTags` computes: both compilations rendered
without the injected minify or format transforms (raw, unminified text). -/
def claimedMeasuredSize (lines : List Line) (reg : List Tag) (t : Tag) : Int :=
  ((compileText lines ((Tag.dependencies reg t true).map Tag.name) false).length : Int) -
    ((compileText lines ((Tag.dependencies reg t false).map Tag.name) false).length : Int)

/-! ## loadExternal (completion-counter join)

`loadExternal` returns a Promise whose executor walks `this.tags`; each tag
contributes exactly one increment of `tagsLoaded` (immediately when it has
no link, in the fetch's `finally` otherwise), and `resolve(this)` is invoked
exactly at an increment where the counter has reached `this.tags.length`.
The increments are `+1` steps of a single counter, so regardless of the
order in which concurrent fetches settle, the successive counter values are
`1, 2, ..., tags.length`. -/

def loadExternalCounterValues (tags : List Tag) : List Nat :=
  (List.range tags.length).map (· + 1)

/-- Whether `resolve` is ever invoked: some increment reaches
`tags.length`.  With zero tags the loop body never runs and no increment
happens. -/
def loadExternalResolves (tags : List Tag) : Bool :=
  (loadExternalCounterValues tags).any (fun c => decide (tags.length ≤ c))

/-! ## Unfolding lemmas for the dependency closure -/

/-- The REQUIRED half of one `dependencies` call, as a standalone function
of the intermediate output list. -/
def depsReq (reg : List Tag) (fuel : Nat) (out1 : List Tag) : List Tag :=
  match findTag reg "REQUIRED" with
  | none => out1
  | some r => if r ∈ out1 then out1 else depsNames reg fuel r.requiredTagNames (out1 ++ [r])

theorem depsGo_zero (reg : List Tag) (t : Tag) (out : List Tag) :
    depsGo reg 0 t out = out := by
  unfold depsGo
  rfl

theorem depsGo_succ (reg : List Tag) (fuel : Nat) (t : Tag) (out : List Tag) :
    depsGo reg (fuel + 1) t out =
      depsReq reg fuel
        (if t ∈ out then out else depsNames reg fuel t.requiredTagNames (out ++ [t])) := by
  unfold depsGo depsReq
  rfl

theorem depsNames_nil (reg : List Tag) (fuel : Nat) (out : List Tag) :
    depsNames reg fuel [] out = out := by
  unfold depsNames
  rfl

theorem depsNames_cons_none (reg : List Tag) (fuel : Nat) (n : String) (ns : List String)
    (out : List Tag) (hf : findTag reg n = none) :
    depsNames reg fuel (n :: ns) out = depsNames reg fuel ns out := by
  unfold depsNames
  conv_lhs => unfold depsNamesH
  simp [hf]

theorem depsNames_cons_some (reg : List Tag) (fuel : Nat) (n : String) (ns : List String)
    (out : List Tag) (r : Tag) (hf : findTag reg n = some r) :
    depsNames reg fuel (n :: ns) out = depsNames reg fuel ns (depsGo reg fuel r out) := by
  unfold depsNames
  conv_lhs => unfold depsNamesH
  simp [hf]

theorem depsReq_none (reg : List Tag) (fuel : Nat) (out1 : List Tag)
    (hf : findTag reg "REQUIRED" = none) : depsReq reg fuel out1 = out1 := by
  unfold depsReq
  simp [hf]

theorem depsReq_some (reg : List Tag) (fuel : Nat) (out1 : List Tag) (r : Tag)
    (hf : findTag reg "REQUIRED" = some r) :
    depsReq reg fuel out1 =
      if r ∈ out1 then out1 else depsNames reg fuel r.requiredTagNames (out1 ++ [r]) := by
  unfold depsReq
  simp [hf]

/-- `find?` membership: a resolved tag belongs to the registry and carries
the looked-up name. -/
theorem findTag_mem {reg : List Tag} {n : String} {r : Tag} (hf : findTag reg n = some r) :
    r ∈ reg ∧ r.name = n := by
  refine ⟨List.mem_of_find?_eq_some hf, ?_⟩
  have := List.find?_some hf
  simpa using this

/-! ## The output list only grows -/

theorem deps_sub (reg : List Tag) :
    ∀ fuel, (∀ t out, out ⊆ depsGo reg fuel t out) ∧
      (∀ ns out, out ⊆ depsNames reg fuel ns out) := by
  intro fuel
  induction fuel with
  | zero =>
    have hgo : ∀ (t : Tag) (out : List Tag), out ⊆ depsGo reg 0 t out := by
      intro t out
      rw [depsGo_zero]
      exact fun x hx => hx
    refine ⟨hgo, ?_⟩
    intro ns
    induction ns with
    | nil => intro out; rw [depsNames_nil]; exact fun x hx => hx
    | cons n ns ih =>
      intro out
      cases hf : findTag reg n with
      | none => rw [depsNames_cons_none reg 0 n ns out hf]; exact ih out
      | some r =>
        rw [depsNames_cons_some reg 0 n ns out r hf, depsGo_zero]
        exact ih out
  | succ fuel ih =>
    have hreq : ∀ out1, out1 ⊆ depsReq reg fuel out1 := by
      intro out1
      cases hf : findTag reg "REQUIRED" with
      | none => rw [depsReq_none reg fuel out1 hf]; exact fun x hx => hx
      | some r =>
        rw [depsReq_some reg fuel out1 r hf]
        by_cases hr : r ∈ out1
        · simp [hr]
        · simp only [hr, if_false]
          exact (List.subset_append_left out1 [r]).trans (ih.2 _ _)
    have hgo : ∀ (t : Tag) (out : List Tag), out ⊆ depsGo reg (fuel + 1) t out := by
      intro t out
      rw [depsGo_succ]
      by_cases ht : t ∈ out
      · simpa [ht] using hreq out
      · simp only [ht, if_false]
        exact ((List.subset_append_left out [t]).trans (ih.2 _ _)).trans (hreq _)
    refine ⟨hgo, ?_⟩
    intro ns
    induction ns with
    | nil => intro out; rw [depsNames_nil]; exact fun x hx => hx
    | cons n ns ihn =>
      intro out
      cases hf : findTag reg n with
      | none => rw [depsNames_cons_none reg (fuel + 1) n ns out hf]; exact ihn out
      | some r =>
        rw [depsNames_cons_some reg (fuel + 1) n ns out r hf]
        exact (hgo r out).trans (ihn _)

theorem depsGo_sub (reg : List Tag) (fuel : Nat) (t : Tag) (out : List Tag) :
    out ⊆ depsGo reg fuel t out := (deps_sub reg fuel).1 t out

theorem depsNames_sub (reg : List Tag) (fuel : Nat) (ns : List String) (out : List Tag) :
    out ⊆ depsNames reg fuel ns out := (deps_sub reg fuel).2 ns out

/-! ## Everything in the output is the root or a registry tag -/

theorem deps_mem (reg : List Tag) :
    ∀ fuel, (∀ t out x, x ∈ depsGo reg fuel t out → x ∈ out ∨ x = t ∨ x ∈ reg) ∧
      (∀ ns out x, x ∈ depsNames reg fuel ns out → x ∈ out ∨ x ∈ reg) := by
  intro fuel
  induction fuel with
  | zero =>
    have hgo : ∀ (t : Tag) out x, x ∈ depsGo reg 0 t out → x ∈ out ∨ x = t ∨ x ∈ reg := by
      intro t out x hx
      rw [depsGo_zero] at hx
      exact Or.inl hx
    refine ⟨hgo, ?_⟩
    intro ns
    induction ns with
    | nil =>
      intro out x hx
      rw [depsNames_nil] at hx
      exact Or.inl hx
    | cons n ns ih =>
      intro out x hx
      cases hf : findTag reg n with
      | none =>
        rw [depsNames_cons_none reg 0 n ns out hf] at hx
        exact ih out x hx
      | some r =>
        rw [depsNames_cons_some reg 0 n ns out r hf, depsGo_zero] at hx
        exact ih out x hx
  | succ fuel ih =>
    have hreq : ∀ out1 x, x ∈ depsReq reg fuel out1 → x ∈ out1 ∨ x ∈ reg := by
      intro out1 x hx
      cases hf : findTag reg "REQUIRED" with
      | none =>
        rw [depsReq_none reg fuel out1 hf] at hx
        exact Or.inl hx
      | some r =>
        rw [depsReq_some reg fuel out1 r hf] at hx
        by_cases hr : r ∈ out1
        · rw [if_pos hr] at hx
          exact Or.inl hx
        · rw [if_neg hr] at hx
          rcases ih.2 _ _ _ hx with h | h
          · rcases List.mem_append.1 h with h' | h'
            · exact Or.inl h'
            · have : x = r := by simpa using h'
              exact Or.inr (this ▸ (findTag_mem hf).1)
          · exact Or.inr h
    have hgo : ∀ (t : Tag) out x, x ∈ depsGo reg (fuel + 1) t out →
        x ∈ out ∨ x = t ∨ x ∈ reg := by
      intro t out x hx
      rw [depsGo_succ] at hx
      by_cases ht : t ∈ out
      · rw [if_pos ht] at hx
        rcases hreq _ _ hx with h | h
        · exact Or.inl h
        · exact Or.inr (Or.inr h)
      · rw [if_neg ht] at hx
        rcases hreq _ _ hx with h | h
        · rcases ih.2 _ _ _ h with h' | h'
          · rcases List.mem_append.1 h' with h'' | h''
            · exact Or.inl h''
            · have : x = t := by simpa using h''
              exact Or.inr (Or.inl this)
          · exact Or.inr (Or.inr h')
        · exact Or.inr (Or.inr h)
    refine ⟨hgo, ?_⟩
    intro ns
    induction ns with
    | nil =>
      intro out x hx
      rw [depsNames_nil] at hx
      exact Or.inl hx
    | cons n ns ihn =>
      intro out x hx
      cases hf : findTag reg n with
      | none =>
        rw [depsNames_cons_none reg (fuel + 1) n ns out hf] at hx
        exact ihn out x hx
      | some r =>
        rw [depsNames_cons_some reg (fuel + 1) n ns out r hf] at hx
        rcases ihn _ x hx with h | h
        · rcases hgo r out x h with h' | h' | h'
          · exact Or.inl h'
          · exact Or.inr (h' ▸ (findTag_mem hf).1)
          · exact Or.inr h'
        · exact Or.inr h

theorem depsGo_mem (reg : List Tag) (fuel : Nat) (t : Tag) (out : List Tag) (x : Tag)
    (hx : x ∈ depsGo reg fuel t out) : x ∈ out ∨ x = t ∨ x ∈ reg :=
  (deps_mem reg fuel).1 t out x hx

/-! ## The output stays duplicate-free -/

theorem nodup_append_one {α : Type} {l : List α} {a : α} (hl : l.Nodup) (ha : a ∉ l) :
    (l ++ [a]).Nodup := by
  simp [List.nodup_append, hl, ha]

theorem deps_nodup (reg : List Tag) :
    ∀ fuel, (∀ t out, out.Nodup → (depsGo reg fuel t out).Nodup) ∧
      (∀ ns out, out.Nodup → (depsNames reg fuel ns out).Nodup) := by
  intro fuel
  induction fuel with
  | zero =>
    have hgo : ∀ (t : Tag) out, out.Nodup → (depsGo reg 0 t out).Nodup := by
      intro t out h
      rw [depsGo_zero]
      exact h
    refine ⟨hgo, ?_⟩
    intro ns
    induction ns with
    | nil =>
      intro out h
      rw [depsNames_nil]
      exact h
    | cons n ns ih =>
      intro out h
      cases hf : findTag reg n with
      | none => rw [depsNames_cons_none reg 0 n ns out hf]; exact ih out h
      | some r =>
        rw [depsNames_cons_some reg 0 n ns out r hf, depsGo_zero]
        exact ih out h
  | succ fuel ih =>
    have hreq : ∀ out1, out1.Nodup → (depsReq reg fuel out1).Nodup := by
      intro out1 h
      cases hf : findTag reg "REQUIRED" with
      | none => rw [depsReq_none reg fuel out1 hf]; exact h
      | some r =>
        rw [depsReq_some reg fuel out1 r hf]
        by_cases hr : r ∈ out1
        · rw [if_pos hr]; exact h
        · rw [if_neg hr]
          exact ih.2 _ _ (nodup_append_one h hr)
    have hgo : ∀ (t : Tag) out, out.Nodup → (depsGo reg (fuel + 1) t out).Nodup := by
      intro t out h
      rw [depsGo_succ]
      by_cases ht : t ∈ out
      · rw [if_pos ht]; exact hreq out h
      · rw [if_neg ht]
        exact hreq _ (ih.2 _ _ (nodup_append_one h ht))
    refine ⟨hgo, ?_⟩
    intro ns
    induction ns with
    | nil =>
      intro out h
      rw [depsNames_nil]
      exact h
    | cons n ns ihn =>
      intro out h
      cases hf : findTag reg n with
      | none => rw [depsNames_cons_none reg (fuel + 1) n ns out hf]; exact ihn out h
      | some r =>
        rw [depsNames_cons_some reg (fuel + 1) n ns out r hf]
        exact ihn _ (hgo r out h)

/-! ## Membership of the root and of the REQUIRED tag -/

theorem depsReq_sub (reg : List Tag) (fuel : Nat) (out1 : List Tag) :
    out1 ⊆ depsReq reg fuel out1 := by
  cases hf : findTag reg "REQUIRED" with
  | none =>
    rw [depsReq_none reg fuel out1 hf]
    exact fun x hx => hx
  | some r =>
    rw [depsReq_some reg fuel out1 r hf]
    by_cases hr : r ∈ out1
    · rw [if_pos hr]
      exact fun x hx => hx
    · rw [if_neg hr]
      exact (List.subset_append_left out1 [r]).trans (depsNames_sub reg fuel _ _)

theorem depsReq_mem_required (reg : List Tag) (fuel : Nat) (out1 : List Tag) (r : Tag)
    (hf : findTag reg "REQUIRED" = some r) : r ∈ depsReq reg fuel out1 := by
  rw [depsReq_some reg fuel out1 r hf]
  by_cases hr : r ∈ out1
  · rw [if_pos hr]; exact hr
  · rw [if_neg hr]
    exact depsNames_sub reg fuel _ _ (by simp)

theorem depsGo_mem_self (reg : List Tag) (fuel : Nat) (t : Tag) (out : List Tag) :
    t ∈ depsGo reg (fuel + 1) t out := by
  rw [depsGo_succ]
  refine depsReq_sub reg fuel _ ?_
  by_cases ht : t ∈ out
  · rw [if_pos ht]; exact ht
  · rw [if_neg ht]
    exact depsNames_sub reg fuel _ _ (by simp)

theorem depsGo_mem_required (reg : List Tag) (fuel : Nat) (t : Tag) (out : List Tag) (r : Tag)
    (hf : findTag reg "REQUIRED" = some r) : r ∈ depsGo reg (fuel + 1) t out := by
  rw [depsGo_succ]
  exact depsReq_mem_required reg fuel _ r hf

/-! ## Fuel stabilization: `registry.length + 2` is always enough

`missCount univ out` counts the elements of the ambient universe (the root
tag plus the registry) not yet in the output list; every recursive call of
the closure strictly decreases it before spending a unit of fuel. -/

def missCount (univ out : List Tag) : Nat :=
  univ.countP (fun x => decide (x ∉ out))

theorem missCount_mono (univ : List Tag) {out out' : List Tag} (h : out ⊆ out') :
    missCount univ out' ≤ missCount univ out := by
  refine List.countP_mono_left ?_
  intro x _ hx
  simp only [decide_eq_true_eq] at hx ⊢
  exact fun hmem => hx (h hmem)

theorem missCount_append_lt (univ : List Tag) {out : List Tag} {x : Tag}
    (hu : x ∈ univ) (hx : x ∉ out) : missCount univ (out ++ [x]) < missCount univ out := by
  induction univ with
  | nil => cases hu
  | cons y ys ih =>
    by_cases hyx : y = x
    · subst hyx
      have e1 : missCount (y :: ys) (out ++ [y]) = missCount ys (out ++ [y]) := by
        simp only [missCount]
        exact List.countP_cons_of_neg _ _ (by simp)
      have e2 : missCount (y :: ys) out = missCount ys out + 1 := by
        simp only [missCount]
        exact List.countP_cons_of_pos _ _ (by simp [hx])
      rw [e1, e2]
      have := missCount_mono ys (List.subset_append_left out [y])
      omega
    · have hy : x ∈ ys := by
        rcases List.mem_cons.1 hu with h | h
        · exact absurd h.symm hyx
        · exact h
      by_cases hyo : y ∈ out
      · have e1 : missCount (y :: ys) (out ++ [x]) = missCount ys (out ++ [x]) := by
          simp only [missCount]
          exact List.countP_cons_of_neg _ _ (by simp [List.mem_append_left _ hyo])
        have e2 : missCount (y :: ys) out = missCount ys out := by
          simp only [missCount]
          exact List.countP_cons_of_neg _ _ (by simp [hyo])
        rw [e1, e2]
        exact ih hy
      · have hyn : y ∉ out ++ [x] := by
          simp only [List.mem_append, List.mem_singleton]
          rintro (h | h)
          · exact hyo h
          · exact hyx h
        have e1 : missCount (y :: ys) (out ++ [x]) = missCount ys (out ++ [x]) + 1 := by
          simp only [missCount]
          exact List.countP_cons_of_pos _ _ (by simp [hyn])
        have e2 : missCount (y :: ys) out = missCount ys out + 1 := by
          simp only [missCount]
          exact List.countP_cons_of_pos _ _ (by simp [hyo])
        rw [e1, e2]
        have := ih hy
        omega

/-- One extra unit of fuel changes nothing once the fuel exceeds the number
of still-missing universe elements. -/
theorem deps_step (reg univ : List Tag) (hreg : ∀ x ∈ reg, x ∈ univ) :
    ∀ fuel,
      (∀ t out, t ∈ univ → missCount univ out < fuel →
        depsGo reg fuel t out = depsGo reg (fuel + 1) t out) ∧
      (∀ ns out, missCount univ out < fuel →
        depsNames reg fuel ns out = depsNames reg (fuel + 1) ns out) := by
  intro fuel
  induction fuel with
  | zero =>
    constructor
    · intro t out _ hm
      exact absurd hm (by omega)
    · intro ns out hm
      exact absurd hm (by omega)
  | succ fuel ih =>
    have hreqstep : ∀ out1, missCount univ out1 ≤ fuel →
        depsReq reg fuel out1 = depsReq reg (fuel + 1) out1 := by
      intro out1 hm1
      cases hf : findTag reg "REQUIRED" with
      | none => rw [depsReq_none reg fuel out1 hf, depsReq_none reg (fuel + 1) out1 hf]
      | some r =>
        rw [depsReq_some reg fuel out1 r hf, depsReq_some reg (fuel + 1) out1 r hf]
        by_cases hr : r ∈ out1
        · rw [if_pos hr, if_pos hr]
        · rw [if_neg hr, if_neg hr]
          have hru : r ∈ univ := hreg r (findTag_mem hf).1
          have hlt : missCount univ (out1 ++ [r]) < fuel :=
            lt_of_lt_of_le (missCount_append_lt univ hru hr) hm1
          exact ih.2 _ _ hlt
    have hgo : ∀ t out, t ∈ univ → missCount univ out < fuel + 1 →
        depsGo reg (fuel + 1) t out = depsGo reg (fuel + 2) t out := by
      intro t out htu hm
      rw [depsGo_succ reg fuel t out, depsGo_succ reg (fuel + 1) t out]
      by_cases ht : t ∈ out
      · rw [if_pos ht, if_pos ht]
        exact hreqstep out (by omega)
      · rw [if_neg ht, if_neg ht]
        have hlt : missCount univ (out ++ [t]) < fuel :=
          lt_of_lt_of_le (missCount_append_lt univ htu ht) (by omega)
        rw [← ih.2 t.requiredTagNames (out ++ [t]) hlt]
        have hsub : out ⊆ depsNames reg fuel t.requiredTagNames (out ++ [t]) :=
          (List.subset_append_left out [t]).trans (depsNames_sub reg fuel _ _)
        exact hreqstep _ (le_trans (missCount_mono univ hsub) (by omega))
    refine ⟨hgo, ?_⟩
    intro ns
    induction ns with
    | nil =>
      intro out _
      rw [depsNames_nil, depsNames_nil]
    | cons n ns ihn =>
      intro out hm
      cases hf : findTag reg n with
      | none =>
        rw [depsNames_cons_none reg (fuel + 1) n ns out hf,
          depsNames_cons_none reg (fuel + 2) n ns out hf]
        exact ihn out hm
      | some r =>
        rw [depsNames_cons_some reg (fuel + 1) n ns out r hf,
          depsNames_cons_some reg (fuel + 2) n ns out r hf]
        have hru : r ∈ univ := hreg r (findTag_mem hf).1
        rw [← hgo r out hru hm]
        have hsub : out ⊆ depsGo reg (fuel + 1) r out := depsGo_sub reg (fuel + 1) r out
        exact ihn _ (lt_of_le_of_lt (missCount_mono univ hsub) hm)

/-- Any two sufficient fuels give the same closure. -/
theorem depsGo_fuel_stable (reg univ : List Tag) (hreg : ∀ x ∈ reg, x ∈ univ)
    (fuel : Nat) (t : Tag) (out : List Tag) (htu : t ∈ univ)
    (hm : missCount univ out < fuel) :
    ∀ k, fuel ≤ k → depsGo reg k t out = depsGo reg fuel t out := by
  intro k hk
  induction k, hk using Nat.le_induction with
  | base => rfl
  | succ k hk ihk =>
    rw [← ihk]
    exact ((deps_step reg univ hreg k).1 t out htu (by omega)).symm

theorem dependencies_true_eq (reg : List Tag) (t : Tag) :
    Tag.dependencies reg t true = depsGo reg (reg.length + 2) t [] := by
  simp [Tag.dependencies]

theorem dependencies_false_eq (reg : List Tag) (t : Tag) :
    Tag.dependencies reg t false =
      (depsGo reg (reg.length + 2) t []).filter (fun x => decide (x ≠ t)) := by
  simp [Tag.dependencies]

/-! ## Claim C6 -/

/-- C6 (confirmed): `dependencies` terminates and returns a finite,
duplicate-free collection of tags for every registry — including cyclic
requirement graphs and required-tag names that resolve to no registered
tag.  Termination is expressed as fuel stability: the closure computed with
any fuel of at least `registry.length + 2` (the fuel `dependencies` uses)
is already the fixed point, so the unbounded JS recursion returns exactly
this list. -/
theorem c6_dependencies_terminates_nodup (reg : List Tag) (t : Tag) (includeSelf : Bool) :
    (Tag.dependencies reg t includeSelf).Nodup ∧
      ∀ fuel, reg.length + 2 ≤ fuel →
        depsGo reg fuel t [] = depsGo reg (reg.length + 2) t [] := by
  constructor
  · have h := (deps_nodup reg (reg.length + 2)).1 t [] List.nodup_nil
    cases includeSelf
    · rw [dependencies_false_eq]
      exact h.filter _
    · rw [dependencies_true_eq]
      exact h
  · intro fuel hf
    refine depsGo_fuel_stable reg (t :: reg) ?_ (reg.length + 2) t [] ?_ ?_ fuel hf
    · intro x hx
      exact List.mem_cons_of_mem t hx
    · exact List.mem_cons_self t reg
    · have he : missCount (t :: reg) [] = (t :: reg).length :=
        List.countP_eq_length.2 (by intro a _; simp)
      rw [he]
      simp

def tagCycA : Tag := { name := "A", requiredTagNames := ["B"] }

def tagCycB : Tag := { name := "B", requiredTagNames := ["A"] }

/-- Witness for C6: a registry whose requirement graph is the two-cycle
A requires B, B requires A. -/
theorem c6_witness :
    (Tag.dependencies [tagCycA, tagCycB] tagCycA true).Nodup ∧
      depsGo [tagCycA, tagCycB] 7 tagCycA [] =
        depsGo [tagCycA, tagCycB] ([tagCycA, tagCycB].length + 2) tagCycA [] := by
  have h := c6_dependencies_terminates_nodup [tagCycA, tagCycB] tagCycA true
  exact ⟨h.1, h.2 7 (by decide)⟩

/-! ## Claim C5 -/

def tagReq : Tag := { name := "REQUIRED" }

/-- C5 counterexample: in a registry containing only the tag literally named
REQUIRED, `dependencies(REQUIRED, includeSelf := false)` filters the root
out, so the result contains the REQUIRED tag zero times — refuting the
claim that the result always contains it exactly once whenever it is
defined. -/
theorem c5_counterexample :
    findTag [tagReq] "REQUIRED" = some tagReq ∧
      List.count tagReq (Tag.dependencies [tagReq] tagReq false) ≠ 1 := by
  decide

/-- C5 (corrected): for every tag T of a registry,
`dependencies(T, includeSelf := true)` contains T and
`dependencies(T, includeSelf := false)` does not contain T; whenever a tag
literally named REQUIRED exists, the `includeSelf := true` result contains
it exactly once, and the `includeSelf := false` result contains it exactly
once unless T itself is that tag, in which case the self-exclusion removes
it (count zero). -/
theorem c5_dependencies_self_required (reg : List Tag) (t : Tag) (ht : t ∈ reg) :
    t ∈ Tag.dependencies reg t true ∧
      t ∉ Tag.dependencies reg t false ∧
      ∀ r, findTag reg "REQUIRED" = some r →
        List.count r (Tag.dependencies reg t true) = 1 ∧
          (r ≠ t → List.count r (Tag.dependencies reg t false) = 1) ∧
          (r = t → List.count r (Tag.dependencies reg t false) = 0) := by
  have hnd : (depsGo reg (reg.length + 2) t []).Nodup :=
    (deps_nodup reg (reg.length + 2)).1 t [] List.nodup_nil
  have hself : t ∈ depsGo reg (reg.length + 2) t [] :=
    depsGo_mem_self reg (reg.length + 1) t []
  refine ⟨?_, ?_, ?_⟩
  · rw [dependencies_true_eq]
    exact hself
  · rw [dependencies_false_eq]
    intro hmem
    rcases List.mem_filter.1 hmem with ⟨_, hdec⟩
    simp at hdec
  · intro r hf
    have hrmem : r ∈ depsGo reg (reg.length + 2) t [] :=
      depsGo_mem_required reg (reg.length + 1) t [] r hf
    refine ⟨?_, ?_, ?_⟩
    · rw [dependencies_true_eq]
      exact List.count_eq_one_of_mem hnd hrmem
    · intro hrt
      rw [dependencies_false_eq]
      have hmemf : r ∈ (depsGo reg (reg.length + 2) t []).filter (fun x => decide (x ≠ t)) :=
        List.mem_filter.2 ⟨hrmem, by simp [hrt]⟩
      exact List.count_eq_one_of_mem (hnd.filter _) hmemf
    · intro hrt
      subst hrt
      rw [dependencies_false_eq]
      refine List.count_eq_zero.2 ?_
      intro hmem
      rcases List.mem_filter.1 hmem with ⟨_, hdec⟩
      simp at hdec

/-- Witness for C5 at a registry with one plain tag and the REQUIRED tag. -/
theorem c5_witness :
    { name := "A" : Tag } ∈ Tag.dependencies [{ name := "A" }, tagReq] { name := "A" } true ∧
      { name := "A" : Tag } ∉ Tag.dependencies [{ name := "A" }, tagReq] { name := "A" } false ∧
      List.count tagReq (Tag.dependencies [{ name := "A" }, tagReq] { name := "A" } true) = 1 := by
  have h := c5_dependencies_self_required [{ name := "A" }, tagReq] { name := "A" } (by decide)
  exact ⟨h.1, h.2.1, (h.2.2 tagReq (by decide)).1⟩

/-! ## Claims C1 and C10: untagged lines are never emitted -/

/-- With the empty included-tag set no association can set `includeLine`. -/
theorem evalLineTags_nil_included (tags : List LineTag) :
    evalLineTags [] tags false = false := by
  induction tags with
  | nil => rfl
  | cons lt rest ih =>
    unfold evalLineTags
    by_cases hm : lt.mode = some Mode.AND
    · simp [hm]
    · simp [hm, ih]

/-- C1 (corrected): compiling with the empty included-tag set yields the
empty output for every script — every line is excluded, the untagged ones
included, because `includeLine` starts false and no association can match
an empty set.  (The claim's prediction that pure untagged code survives is
refuted by `c1_counterexample`.) -/
theorem c1_empty_set_compiles_empty (lines : List Line) (uglified : Bool) :
    compileText lines [] uglified = "" := by
  induction lines with
  | nil => rfl
  | cons l rest ih =>
    simp [compileText, evalLineTags_nil_included, ih]

def scriptC1 : String := "// UTAGDEF DESC EXTRA extra\nx=1;\ny=2; // UTAGSET LINE EXTRA OR"

def taggedC1 : List Line :=
  Script.tagLines (Script.getTags (Script.parse scriptC1)) (Script.parse scriptC1)

/-- C1 counterexample: the claim predicts that this script — one untagged
code line `x=1;` and one line tagged (EXTRA, OR) — compiled with the empty
set (minify and format disabled) produces output containing the untagged
line `x=1;` and nothing else.  The code produces the empty output, which
does not contain the `x=1;` line. -/
theorem c1_counterexample :
    Script.compile taggedC1 [] false false some some = some "" ∧
      ("" : String) ≠ "x=1; \n" := by
  exact ⟨rfl, by decide⟩

/-- C10 (confirmed): for every included-tag set and every flag combination,
a line whose association list is empty contributes nothing to `compile`'s
output: dropping all untagged lines first changes nothing, because
`includeLine` starts false and only a matching association can set it. -/
theorem c10_untagged_lines_never_emitted (lines : List Line) (included : List String)
    (uglified beautified : Bool) (minifyF formatF : String → Option String) :
    Script.compile lines included uglified beautified minifyF formatF =
      Script.compile (lines.filter (fun l => !l.tags.isEmpty)) included uglified beautified
        minifyF formatF := by
  have h : compileText lines included uglified =
      compileText (lines.filter (fun l => !l.tags.isEmpty)) included uglified := by
    induction lines with
    | nil => rfl
    | cons l rest ih =>
      by_cases hl : l.tags.isEmpty
      · have ht : l.tags = [] := by simpa using hl
        simp [compileText, List.filter_cons, hl, ht, evalLineTags, ih]
      · simp [compileText, List.filter_cons, hl, ih]
  unfold Script.compile
  rw [h]

/-! ## Claim C7: AND veto -/

def lineC7 : Line :=
  { code := "z=3; ",
    tags := [⟨{ name := "A" }, some Mode.OR⟩, ⟨{ name := "B" }, some Mode.AND⟩] }

/-- C7 (confirmed): a line whose association list is (A, OR) then (B, AND)
is excluded by compile with includedTagNames = ["A"] — the trailing unmet
AND vetoes the earlier OR match — and included with ["A", "B"]. -/
theorem c7_and_veto :
    Script.compile [lineC7] ["A"] false false some some = some "" ∧
      Script.compile [lineC7] ["A", "B"] false false some some = some "z=3; \n" := by
  decide

/-! ## Claim C8: block tagging is inclusive of its delimiter lines -/

def scriptC8 : String :=
  "// UTAGDEF DESC X feature\n// UTAGSET START X OR\ny=2;\n// UTAGSET END X OR"

def taggedC8 : List Line :=
  Script.tagLines (Script.getTags (Script.parse scriptC8)) (Script.parse scriptC8)

/-- C8 (confirmed): for a script whose lines are a `UTAGSET START X OR`
comment line, a code-only line, and a `UTAGSET END X OR` comment line,
compiling with ["X"] includes all three lines (the code portion of the
middle one and, with minify off, the marker lines' comments), while
compiling with a set not containing X — the empty set or ["OTHER"] —
excludes all three. -/
theorem c8_block_inclusive :
    Script.compile taggedC8 ["X"] false false some some =
        some "// UTAGSET START X OR \ny=2; \n// UTAGSET END X OR \n" ∧
      Script.compile taggedC8 [] false false some some = some "" ∧
      Script.compile taggedC8 ["OTHER"] false false some some = some "" := by
  decide

/-! ## Claim C3: open-block stack attachment -/

def lineStart3 : Line := { comment := "UTAGSET START X OR" }

def lineBad3 : Line := { code := "a=1; ", comment := "UTAGSET LINE Y OR" }

/-- C3 counterexample: the second line lies inside the open X block but its
own LINE directive names the unknown tag Y, so `tagLines` skips the whole
line (`continue`) and attaches nothing — not even the open-block entry
(X, OR) that the claim says is always attached. -/
theorem c3_counterexample :
    (Script.tagLines [{ name := "X" }] [lineStart3, lineBad3]).map Line.tags =
      [[⟨{ name := "X" }, some Mode.OR⟩], []] := by
  decide

/-- C3 (corrected): after a line's own directives are processed, every entry
on the open-block stack is attached to the line — for plain lines, for
directive lines with unknown properties or unparsable modes, and for
resolved START/END/LINE directives — except that a line whose UTAGSET
directive names a tag missing from the registry is skipped entirely with a
diagnostic: it keeps its tag list and leaves the stack unchanged. -/
theorem c3_stack_attachment (tags : List Tag) (stack : List LineTag) (line : Line) :
    (tagLinesSkips tags line = false →
      ∀ e ∈ (tagLinesStep tags stack line).2, e ∈ (tagLinesStep tags stack line).1.tags) ∧
      (tagLinesSkips tags line = true →
        (tagLinesStep tags stack line).1 = line ∧ (tagLinesStep tags stack line).2 = stack) := by
  by_cases hop : ((commentTokens line).getD 0 "" == "UTAGSET") = true
  · cases hf : findTag tags ((commentTokens line).getD 2 "") with
    | none =>
      have hskip : tagLinesSkips tags line = true := by
        unfold tagLinesSkips
        rw [hop, hf]
        rfl
      have hstep : tagLinesStep tags stack line = (line, stack) := by
        unfold tagLinesStep
        rw [if_pos hop, hf]
      refine ⟨?_, ?_⟩
      · intro h
        rw [hskip] at h
        cases h
      · intro _
        rw [hstep]
        exact ⟨rfl, rfl⟩
    | some tag =>
      have hskip : tagLinesSkips tags line = false := by
        unfold tagLinesSkips
        rw [hop, hf]
        rfl
      refine ⟨?_, ?_⟩
      · intro _
        by_cases h1 : (commentTokens line).getD 1 "" = "START"
        · have hstep : tagLinesStep tags stack line =
              ({ line with tags :=
                  line.tags ++ (stack ++ [⟨tag, parseMode ((commentTokens line).getD 3 "")⟩]) },
                stack ++ [⟨tag, parseMode ((commentTokens line).getD 3 "")⟩]) := by
            unfold tagLinesStep
            rw [if_pos hop, hf, h1]
            rfl
          rw [hstep]
          intro e he
          exact List.mem_append_right _ he
        · by_cases h2 : (commentTokens line).getD 1 "" = "END"
          · have hstep : tagLinesStep tags stack line =
                ({ line with tags :=
                    line.tags ++ ([⟨tag, parseMode ((commentTokens line).getD 3 "")⟩] ++
                      stack.filter (fun lt => !(lt.tag.name == tag.name))) },
                  stack.filter (fun lt => !(lt.tag.name == tag.name))) := by
              unfold tagLinesStep
              rw [if_pos hop, hf, h2]
              rfl
            rw [hstep]
            intro e he
            exact List.mem_append_right _ (List.mem_append_right _ he)
          · by_cases h3 : (commentTokens line).getD 1 "" = "LINE"
            · have hstep : tagLinesStep tags stack line =
                  ({ line with tags :=
                      line.tags ++
                        ([⟨tag, parseMode ((commentTokens line).getD 3 "")⟩] ++ stack) },
                    stack) := by
                unfold tagLinesStep
                rw [if_pos hop, hf, h3]
                rfl
              rw [hstep]
              intro e he
              exact List.mem_append_right _ (List.mem_append_right _ he)
            · have hstep : tagLinesStep tags stack line =
                  ({ line with tags := line.tags ++ stack }, stack) := by
                unfold tagLinesStep
                rw [if_pos hop, hf]
                split <;> simp_all
              rw [hstep]
              intro e he
              exact List.mem_append_right _ he
      · intro h
        rw [hskip] at h
        cases h
  · have hop2 : ((commentTokens line).getD 0 "" == "UTAGSET") = false := by
      simpa using hop
    have hskip : tagLinesSkips tags line = false := by
      unfold tagLinesSkips
      rw [hop2]
      rfl
    have hstep : tagLinesStep tags stack line =
        ({ line with tags := line.tags ++ stack }, stack) := by
      unfold tagLinesStep
      rw [if_neg (by simp only [hop2]; exact Bool.false_ne_true)]
    refine ⟨?_, ?_⟩
    · intro _ e he
      rw [hstep] at he ⊢
      exact List.mem_append_right _ he
    · intro h
      rw [hskip] at h
      cases h

/-- Witness for C3: a code line with no directive inside an open (X, OR)
block receives the open-block entry. -/
theorem c3_witness :
    ⟨{ name := "X" : Tag }, some Mode.OR⟩ ∈
      (tagLinesStep [{ name := "X" }] [⟨{ name := "X" }, some Mode.OR⟩]
        { code := "w=4; " }).1.tags := by
  have h := c3_stack_attachment [{ name := "X" }] [⟨{ name := "X" }, some Mode.OR⟩]
    { code := "w=4; " }
  exact h.1 (by decide) ⟨{ name := "X" }, some Mode.OR⟩ (by decide)

/-! ## Claim C4: loadExternal completion -/

/-- C4 (code_bug): the completion-counter join of `loadExternal` never
invokes `resolve` for a script with zero tags — the per-tag loop body never
runs, so no increment of `tagsLoaded` occurs and the returned promise stays
pending forever, while for any non-empty registry (here a single linkless
tag) the final increment reaches the count and resolves.  The claim and the
spec say the promise resolves once every fetch has settled, which for zero
tags means immediately. -/
theorem c4_zero_tags_never_resolves :
    loadExternalResolves [] = false ∧ loadExternalResolves [{ name := "T" }] = true := by
  decide

/-! ## Claim C9: unresolved REQU directives -/

theorem dependencies_mem (reg : List Tag) (t : Tag) (incl : Bool) (x : Tag)
    (hx : x ∈ Tag.dependencies reg t incl) : x = t ∨ x ∈ reg := by
  have hx2 : x ∈ depsGo reg (reg.length + 2) t [] := by
    cases incl
    · rw [dependencies_false_eq] at hx
      exact List.mem_of_mem_filter hx
    · rw [dependencies_true_eq] at hx
      exact hx
  rcases depsGo_mem reg (reg.length + 2) t [] x hx2 with h | h | h
  · cases h
  · exact Or.inl h
  · exact Or.inr h

/-- C9 (confirmed): a `UTAGDEF REQU` line whose DATA names a tag absent from
the registry (after the subject tag's find-or-create) logs a diagnostic and
changes nothing beyond that creation — in particular it appends nothing to
the subject tag's required-tag-name list — and a subsequent `dependencies`
call on any tag of that registry returns no tag named DATA; when DATA does
resolve, the resolved tag's name is appended to the subject's list. -/
theorem c9_requ_unresolved (reg : List Tag) (line : Line)
    (hop : (commentTokens line).getD 0 "" = "UTAGDEF")
    (hprop : (commentTokens line).getD 1 "" = "REQU") :
    (findTag (ensureTag reg ((commentTokens line).getD 2 ""))
        (directiveData (commentTokens line)) = none →
      getTagsStep reg line = ensureTag reg ((commentTokens line).getD 2 "") ∧
        ∀ t ∈ ensureTag reg ((commentTokens line).getD 2 ""), ∀ incl,
          ∀ x ∈ Tag.dependencies (ensureTag reg ((commentTokens line).getD 2 "")) t incl,
            x.name ≠ directiveData (commentTokens line)) ∧
      (∀ rt, findTag (ensureTag reg ((commentTokens line).getD 2 ""))
          (directiveData (commentTokens line)) = some rt →
        getTagsStep reg line =
          updateFirst (ensureTag reg ((commentTokens line).getD 2 ""))
            ((commentTokens line).getD 2 "")
            (fun t => { t with requiredTagNames := t.requiredTagNames ++ [rt.name] })) := by
  have hbeq : ((commentTokens line).getD 0 "" == "UTAGDEF") = true := by
    rw [hop]
    rfl
  constructor
  · intro hnone
    constructor
    · unfold getTagsStep
      rw [if_pos hbeq, hprop, hnone]
      rfl
    · intro t ht incl x hx
      have hmem : x ∈ ensureTag reg ((commentTokens line).getD 2 "") := by
        rcases dependencies_mem _ t incl x hx with h | h
        · exact h ▸ ht
        · exact h
      have := (List.find?_eq_none.1 hnone) x hmem
      simpa using this
  · intro rt hrt
    unfold getTagsStep
    rw [if_pos hbeq, hprop, hrt]
    rfl

def lineC9 : Line := { comment := "UTAGDEF REQU A B " }

/-- Witness for C9: the directive `UTAGDEF REQU A B` with B undefined only
creates the tag A (with an empty required-tag-name list). -/
theorem c9_witness :
    getTagsStep [] lineC9 = ensureTag [] ((commentTokens lineC9).getD 2 "") := by
  have h := c9_requ_unresolved [] lineC9 (by decide) (by decide)
  exact (h.1 (by decide)).1

/-! ## Claim C2: measureTags

The per-tag loop of `measureTags` mutates each tag's size in place, so the
registry seen by later iterations differs from the original in the
already-measured sizes.  Sizes influence neither name lookup nor the
requirement traversal; the simulation below makes that precise: over
registries that agree pointwise on every tag's name and required-tag-name
list (`tagKey`) and whose names are pairwise distinct — true of every
registry `getTags` builds, since tags are found-or-created by name — the
dependency closure produces key-aligned outputs, hence equal name lists. -/

def tagKey (t : Tag) : String × List String := (t.name, t.requiredTagNames)

def keyRel (a b : Tag) : Prop := tagKey a = tagKey b

theorem keyRel_name {a b : Tag} (h : keyRel a b) : a.name = b.name := by
  have := congrArg Prod.fst h
  simpa [tagKey] using this

theorem keyRel_req {a b : Tag} (h : keyRel a b) : a.requiredTagNames = b.requiredTagNames := by
  have := congrArg Prod.snd h
  simpa [tagKey] using this

theorem forall₂_keyRel_name_eq :
    ∀ {l l' : List Tag}, List.Forall₂ keyRel l l' → l.map Tag.name = l'.map Tag.name := by
  intro l l' h
  induction h with
  | nil => rfl
  | cons ha _ ih => simp [keyRel_name ha, ih]

theorem forall₂_keyRel_append :
    ∀ {l1 l1' l2 l2' : List Tag}, List.Forall₂ keyRel l1 l1' → List.Forall₂ keyRel l2 l2' →
      List.Forall₂ keyRel (l1 ++ l2) (l1' ++ l2') := by
  intro l1 l1' l2 l2' h1 h2
  induction h1 with
  | nil => simpa using h2
  | cons ha _ ih => exact List.Forall₂.cons ha ih

theorem forall₂_keyRel_mem_left :
    ∀ {l l' : List Tag}, List.Forall₂ keyRel l l' → ∀ {x}, x ∈ l → ∃ x' ∈ l', keyRel x x' := by
  intro l l' h
  induction h with
  | nil => intro x hx; cases hx
  | cons ha _ ih =>
    intro x hx
    rcases List.mem_cons.1 hx with h1 | h1
    · exact ⟨_, List.mem_cons_self _ _, h1 ▸ ha⟩
    · rcases ih h1 with ⟨x', hx', hk2⟩
      exact ⟨x', List.mem_cons_of_mem _ hx', hk2⟩

theorem forall₂_keyRel_mem_right :
    ∀ {l l' : List Tag}, List.Forall₂ keyRel l l' → ∀ {x'}, x' ∈ l' → ∃ x ∈ l, keyRel x x' := by
  intro l l' h
  induction h with
  | nil => intro x hx; cases hx
  | cons ha _ ih =>
    intro x' hx'
    rcases List.mem_cons.1 hx' with h1 | h1
    · exact ⟨_, List.mem_cons_self _ _, h1 ▸ ha⟩
    · rcases ih h1 with ⟨x, hx, hk2⟩
      exact ⟨x, List.mem_cons_of_mem _ hx, hk2⟩

/-- `find` by name behaves identically on key-aligned registries. -/
theorem findTag_keyRel :
    ∀ {reg reg' : List Tag}, List.Forall₂ keyRel reg reg' → ∀ n,
      (findTag reg n = none ∧ findTag reg' n = none) ∨
        ∃ x x', findTag reg n = some x ∧ findTag reg' n = some x' ∧ keyRel x x' ∧
          x ∈ reg ∧ x' ∈ reg' := by
  intro reg reg' h
  induction h with
  | nil =>
    intro n
    exact Or.inl ⟨rfl, rfl⟩
  | @cons a b l l' ha hrest ih =>
    intro n
    by_cases hn : (a.name == n) = true
    · have hn' : (b.name == n) = true := by
        rw [← keyRel_name ha]
        exact hn
      refine Or.inr ⟨a, b, ?_, ?_, ha, List.mem_cons_self _ _, List.mem_cons_self _ _⟩
      · unfold findTag
        exact List.find?_cons_of_pos _ hn
      · unfold findTag
        exact List.find?_cons_of_pos _ hn'
    · have hn' : ¬ (b.name == n) = true := by
        rw [← keyRel_name ha]
        exact hn
      have e1 : findTag (a :: l) n = findTag l n := by
        unfold findTag
        exact List.find?_cons_of_neg _ hn
      have e2 : findTag (b :: l') n = findTag l' n := by
        unfold findTag
        exact List.find?_cons_of_neg _ hn'
      rcases ih n with ⟨hf, hf'⟩ | ⟨x, x', hf, hf', hxk, hx, hx'⟩
      · exact Or.inl ⟨e1.trans hf, e2.trans hf'⟩
      · exact Or.inr ⟨x, x', e1.trans hf, e2.trans hf', hxk,
          List.mem_cons_of_mem _ hx, List.mem_cons_of_mem _ hx'⟩

theorem nodup_name_inj {reg : List Tag} (hnd : (reg.map Tag.name).Nodup) {x y : Tag}
    (hx : x ∈ reg) (hy : y ∈ reg) (hn : x.name = y.name) : x = y :=
  List.inj_on_of_nodup_map hnd hx hy hn

/-- Over name-duplicate-free registries, membership tests on key-aligned
output lists agree. -/
theorem keyRel_mem_iff {reg reg' out out' : List Tag} {t t' : Tag}
    (hnd : (reg.map Tag.name).Nodup) (hnd' : (reg'.map Tag.name).Nodup)
    (hout : List.Forall₂ keyRel out out')
    (ho : ∀ x ∈ out, x ∈ reg) (ho' : ∀ x ∈ out', x ∈ reg')
    (htk : keyRel t t') (ht : t ∈ reg) (ht' : t' ∈ reg') :
    t ∈ out ↔ t' ∈ out' := by
  constructor
  · intro hmem
    rcases forall₂_keyRel_mem_left hout hmem with ⟨y', hy', hk2⟩
    have hyt : y' = t' := by
      refine nodup_name_inj hnd' (ho' _ hy') ht' ?_
      rw [← keyRel_name hk2, keyRel_name htk]
    exact hyt ▸ hy'
  · intro hmem
    rcases forall₂_keyRel_mem_right hout hmem with ⟨y, hy, hk2⟩
    have hyt : y = t := by
      refine nodup_name_inj hnd (ho _ hy) ht ?_
      rw [keyRel_name hk2, ← keyRel_name htk]
    exact hyt ▸ hy

/-- Size-only changes to a registry do not affect the dependency closure up
to tag keys: key-aligned inputs give key-aligned outputs. -/
theorem deps_sim (reg reg' : List Tag) (hk : List.Forall₂ keyRel reg reg')
    (hnd : (reg.map Tag.name).Nodup) :
    ∀ fuel,
      (∀ t t' out out', keyRel t t' → t ∈ reg → t' ∈ reg' →
        List.Forall₂ keyRel out out' → (∀ x ∈ out, x ∈ reg) → (∀ x ∈ out', x ∈ reg') →
        List.Forall₂ keyRel (depsGo reg fuel t out) (depsGo reg' fuel t' out')) ∧
      (∀ ns out out',
        List.Forall₂ keyRel out out' → (∀ x ∈ out, x ∈ reg) → (∀ x ∈ out', x ∈ reg') →
        List.Forall₂ keyRel (depsNames reg fuel ns out) (depsNames reg' fuel ns out')) := by
  have hnd' : (reg'.map Tag.name).Nodup := by
    rw [← forall₂_keyRel_name_eq hk]
    exact hnd
  intro fuel
  induction fuel with
  | zero =>
    constructor
    · intro t t' out out' _ _ _ hout _ _
      rw [depsGo_zero, depsGo_zero]
      exact hout
    · intro ns
      induction ns with
      | nil =>
        intro out out' hout _ _
        rw [depsNames_nil, depsNames_nil]
        exact hout
      | cons n ns ihn =>
        intro out out' hout ho ho'
        rcases findTag_keyRel hk n with ⟨hf, hf'⟩ | ⟨x, x', hf, hf', _, _, _⟩
        · rw [depsNames_cons_none _ _ _ _ _ hf, depsNames_cons_none _ _ _ _ _ hf']
          exact ihn out out' hout ho ho'
        · rw [depsNames_cons_some _ _ _ _ _ _ hf, depsNames_cons_some _ _ _ _ _ _ hf',
            depsGo_zero, depsGo_zero]
          exact ihn out out' hout ho ho'
  | succ fuel ih =>
    have hreq : ∀ out1 out1', List.Forall₂ keyRel out1 out1' →
        (∀ x ∈ out1, x ∈ reg) → (∀ x ∈ out1', x ∈ reg') →
        List.Forall₂ keyRel (depsReq reg fuel out1) (depsReq reg' fuel out1') := by
      intro out1 out1' hout ho ho'
      rcases findTag_keyRel hk "REQUIRED" with ⟨hf, hf'⟩ | ⟨r, r', hf, hf', hrk, hr, hr'⟩
      · rw [depsReq_none _ _ _ hf, depsReq_none _ _ _ hf']
        exact hout
      · rw [depsReq_some _ _ _ _ hf, depsReq_some _ _ _ _ hf']
        have hiff := keyRel_mem_iff hnd hnd' hout ho ho' hrk hr hr'
        by_cases hrm : r ∈ out1
        · rw [if_pos hrm, if_pos (hiff.1 hrm)]
          exact hout
        · rw [if_neg hrm, if_neg (fun hm => hrm (hiff.2 hm))]
          rw [keyRel_req hrk]
          refine ih.2 _ _ _
            (forall₂_keyRel_append hout (List.Forall₂.cons hrk List.Forall₂.nil)) ?_ ?_
          · intro x hx
            rcases List.mem_append.1 hx with h1 | h1
            · exact ho _ h1
            · have hx2 : x = r := by simpa using h1
              exact hx2 ▸ hr
          · intro x hx
            rcases List.mem_append.1 hx with h1 | h1
            · exact ho' _ h1
            · have hx2 : x = r' := by simpa using h1
              exact hx2 ▸ hr'
    have hgo : ∀ t t' out out', keyRel t t' → t ∈ reg → t' ∈ reg' →
        List.Forall₂ keyRel out out' → (∀ x ∈ out, x ∈ reg) → (∀ x ∈ out', x ∈ reg') →
        List.Forall₂ keyRel (depsGo reg (fuel + 1) t out) (depsGo reg' (fuel + 1) t' out') := by
      intro t t' out out' htk ht ht' hout ho ho'
      rw [depsGo_succ, depsGo_succ]
      have hiff := keyRel_mem_iff hnd hnd' hout ho ho' htk ht ht'
      by_cases htm : t ∈ out
      · rw [if_pos htm, if_pos (hiff.1 htm)]
        exact hreq out out' hout ho ho'
      · rw [if_neg htm, if_neg (fun hm => htm (hiff.2 hm))]
        have hmemL : ∀ x ∈ out ++ [t], x ∈ reg := by
          intro x hx
          rcases List.mem_append.1 hx with h1 | h1
          · exact ho _ h1
          · have hx2 : x = t := by simpa using h1
            exact hx2 ▸ ht
        have hmemR : ∀ x ∈ out' ++ [t'], x ∈ reg' := by
          intro x hx
          rcases List.mem_append.1 hx with h1 | h1
          · exact ho' _ h1
          · have hx2 : x = t' := by simpa using h1
            exact hx2 ▸ ht'
        have hout1 : List.Forall₂ keyRel
            (depsNames reg fuel t.requiredTagNames (out ++ [t]))
            (depsNames reg' fuel t'.requiredTagNames (out' ++ [t'])) := by
          rw [keyRel_req htk]
          exact ih.2 _ _ _
            (forall₂_keyRel_append hout (List.Forall₂.cons htk List.Forall₂.nil)) hmemL hmemR
        refine hreq _ _ hout1 ?_ ?_
        · intro x hx
          rcases (deps_mem reg fuel).2 _ _ x hx with h | h
          · exact hmemL _ h
          · exact h
        · intro x hx
          rcases (deps_mem reg' fuel).2 _ _ x hx with h | h
          · exact hmemR _ h
          · exact h
    refine ⟨hgo, ?_⟩
    intro ns
    induction ns with
    | nil =>
      intro out out' hout _ _
      rw [depsNames_nil, depsNames_nil]
      exact hout
    | cons n ns ihn =>
      intro out out' hout ho ho'
      rcases findTag_keyRel hk n with ⟨hf, hf'⟩ | ⟨x, x', hf, hf', hxk, hx, hx'⟩
      · rw [depsNames_cons_none _ _ _ _ _ hf, depsNames_cons_none _ _ _ _ _ hf']
        exact ihn out out' hout ho ho'
      · rw [depsNames_cons_some _ _ _ _ _ _ hf, depsNames_cons_some _ _ _ _ _ _ hf']
        refine ihn _ _ (hgo x x' out out' hxk hx hx' hout ho ho') ?_ ?_
        · intro y hy
          rcases depsGo_mem reg (fuel + 1) x out y hy with h | h | h
          · exact ho _ h
          · exact h ▸ hx
          · exact h
        · intro y hy
          rcases depsGo_mem reg' (fuel + 1) x' out' y hy with h | h | h
          · exact ho' _ h
          · exact h ▸ hx'
          · exact h

/-- The self-exclusion filter also preserves name lists across key-aligned
outputs. -/
theorem filter_ne_keyRel_names {reg reg' : List Tag}
    (hnd : (reg.map Tag.name).Nodup) (hnd' : (reg'.map Tag.name).Nodup) {t t' : Tag}
    (htk : keyRel t t') (ht : t ∈ reg) (ht' : t' ∈ reg') :
    ∀ {out out'}, List.Forall₂ keyRel out out' →
      (∀ x ∈ out, x ∈ reg) → (∀ x ∈ out', x ∈ reg') →
      (out.filter (fun x => decide (x ≠ t))).map Tag.name =
        (out'.filter (fun x => decide (x ≠ t'))).map Tag.name := by
  intro out out' hout
  induction hout with
  | nil =>
    intro _ _
    rfl
  | @cons y y' l l' hyk hrest ih =>
    intro ho ho'
    have hy : y ∈ reg := ho _ (List.mem_cons_self _ _)
    have hy' : y' ∈ reg' := ho' _ (List.mem_cons_self _ _)
    have hiff : y = t ↔ y' = t' := by
      constructor
      · intro he
        refine nodup_name_inj hnd' hy' ht' ?_
        rw [← keyRel_name hyk, he, keyRel_name htk]
      · intro he
        refine nodup_name_inj hnd hy ht ?_
        rw [keyRel_name hyk, he, ← keyRel_name htk]
    have ihl := ih (fun x hx => ho _ (List.mem_cons_of_mem _ hx))
      (fun x hx => ho' _ (List.mem_cons_of_mem _ hx))
    by_cases hyt : y = t
    · have hyt' : y' = t' := hiff.1 hyt
      simp only [List.filter_cons]
      rw [if_neg (by simp [hyt]), if_neg (by simp [hyt'])]
      exact ihl
    · have hyt' : ¬ y' = t' := fun h => hyt (hiff.2 h)
      simp only [List.filter_cons]
      rw [if_pos (by simp [hyt]), if_pos (by simp [hyt'])]
      simp only [List.map_cons, keyRel_name hyk, ihl]

/-- `dependencies` returns the same name lists over a registry whose sizes
have been edited, for both values of `includeSelf`. -/
theorem dependencies_names_sim (reg reg' : List Tag) (hk : List.Forall₂ keyRel reg reg')
    (hnd : (reg.map Tag.name).Nodup) (t t' : Tag) (htk : keyRel t t')
    (ht : t ∈ reg) (ht' : t' ∈ reg') (incl : Bool) :
    (Tag.dependencies reg t incl).map Tag.name =
      (Tag.dependencies reg' t' incl).map Tag.name := by
  have hnd' : (reg'.map Tag.name).Nodup := by
    rw [← forall₂_keyRel_name_eq hk]
    exact hnd
  have hlen : reg.length = reg'.length := hk.length_eq
  have hout : List.Forall₂ keyRel (depsGo reg (reg.length + 2) t [])
      (depsGo reg' (reg'.length + 2) t' []) := by
    rw [← hlen]
    exact (deps_sim reg reg' hk hnd (reg.length + 2)).1 t t' [] [] htk ht ht'
      List.Forall₂.nil (fun x hx => absurd hx (List.not_mem_nil x))
      (fun x hx => absurd hx (List.not_mem_nil x))
  have hoL : ∀ x ∈ depsGo reg (reg.length + 2) t [], x ∈ reg := by
    intro x hx
    rcases depsGo_mem reg (reg.length + 2) t [] x hx with h | h | h
    · cases h
    · exact h ▸ ht
    · exact h
  have hoR : ∀ x ∈ depsGo reg' (reg'.length + 2) t' [], x ∈ reg' := by
    intro x hx
    rcases depsGo_mem reg' (reg'.length + 2) t' [] x hx with h | h | h
    · cases h
    · exact h ▸ ht'
    · exact h
  cases incl
  · rw [dependencies_false_eq, dependencies_false_eq]
    exact filter_ne_keyRel_names hnd hnd' htk ht ht' hout hoL hoR
  · rw [dependencies_true_eq, dependencies_true_eq]
    exact forall₂_keyRel_name_eq hout

/-- With the default flags (uglified, not beautified) `compile` is exactly
the injected minifier applied to the raw filtered text. -/
theorem compile_ugly (lines : List Line) (names : List String)
    (minifyF : String → Option String) :
    Script.compile lines names true false minifyF some =
      minifyF (compileText lines names true) := by
  unfold Script.compile
  cases h : minifyF (compileText lines names true) with
  | none => simp [h]
  | some a => simp [h]

/-- The tag as `measureTags` leaves it, sizes phrased over the original
registry. -/
def measuredResize (lines : List Line) (minifyF : String → Option String) (reg : List Tag)
    (t : Tag) : Tag :=
  { t with size := codeMeasuredSize lines minifyF reg t }

/-- Apply `f` to every element at an index of at least `i`. -/
def resizeAfter (f : Tag → Tag) : Nat → List Tag → List Tag
  | _, [] => []
  | 0, t :: ts => f t :: resizeAfter f 0 ts
  | i + 1, t :: ts => t :: resizeAfter f i ts

theorem resizeAfter_zero (f : Tag → Tag) : ∀ l, resizeAfter f 0 l = l.map f := by
  intro l
  induction l with
  | nil => rfl
  | cons t ts ih => simp [resizeAfter, ih]

theorem resizeAfter_ge (f : Tag → Tag) : ∀ l i, l.length ≤ i → resizeAfter f i l = l := by
  intro l
  induction l with
  | nil => intro i _; cases i <;> rfl
  | cons t ts ih =>
    intro i hi
    cases i with
    | zero => simp at hi
    | succ i =>
      simp only [resizeAfter]
      rw [ih i (by simpa using hi)]

theorem resizeAfter_set (f : Tag → Tag) :
    ∀ l i t, l.get? i = some t →
      resizeAfter f i l = resizeAfter f (i + 1) (l.set i (f t)) := by
  intro l
  induction l with
  | nil => intro i t h; cases h
  | cons a ts ih =>
    intro i t h
    cases i with
    | zero =>
      have ha : a = t := by simpa using h
      subst ha
      simp [resizeAfter, List.set]
    | succ i =>
      have h' : ts.get? i = some t := by simpa using h
      simp only [resizeAfter, List.set]
      rw [ih i t h']

/-- Replacing a registry entry by a size-edited copy preserves key
alignment with the original registry. -/
theorem forall₂_keyRel_set :
    ∀ {reg regk : List Tag}, List.Forall₂ keyRel reg regk →
      ∀ i t s, regk.get? i = some t →
        List.Forall₂ keyRel reg (regk.set i { t with size := s }) := by
  intro reg regk h
  induction h with
  | nil => intro i t s hget; cases hget
  | @cons a b l l' ha hrest ih =>
    intro i t s hget
    cases i with
    | zero =>
      have hb : b = t := by simpa using hget
      subst hb
      exact List.Forall₂.cons ha hrest
    | succ i =>
      have hget' : l'.get? i = some t := by simpa using hget
      exact List.Forall₂.cons ha (ih i t s hget')

/-- Invariant of the `measureTags` loop: from index `i` on, the loop
succeeds (the minifier is total) and sets every remaining tag's size to the
closed-form minified-length difference over the original registry. -/
theorem measureGo_spec (lines : List Line) (minifyF : String → Option String)
    (hm : ∀ s, (minifyF s).isSome) (reg : List Tag) (hnd : (reg.map Tag.name).Nodup) :
    ∀ n i regk, n = reg.length - i →
      List.Forall₂ keyRel reg regk →
      (∀ j, i ≤ j → regk.get? j = reg.get? j) →
      measureTagsGo lines minifyF n i regk =
        some (resizeAfter (measuredResize lines minifyF reg) i regk) := by
  intro n
  induction n with
  | zero =>
    intro i regk hn hk _
    have hlen : regk.length = reg.length := hk.length_eq.symm
    have hge : regk.length ≤ i := by omega
    rw [resizeAfter_ge _ _ _ hge]
    rfl
  | succ n ih =>
    intro i regk hn hk hagree
    have hi : i < reg.length := by omega
    have hti : reg.get? i = some (reg.get ⟨i, hi⟩) := List.get?_eq_get hi
    set t := reg.get ⟨i, hi⟩ with htdef
    have htik : regk.get? i = some t := (hagree i (le_refl i)).trans hti
    have htmem : t ∈ reg := List.get?_mem hti
    have htkmem : t ∈ regk := List.get?_mem htik
    have hnames1 : (Tag.dependencies regk t true).map Tag.name =
        (Tag.dependencies reg t true).map Tag.name :=
      (dependencies_names_sim reg regk hk hnd t t rfl htmem htkmem true).symm
    have hnames2 : (Tag.dependencies regk t false).map Tag.name =
        (Tag.dependencies reg t false).map Tag.name :=
      (dependencies_names_sim reg regk hk hnd t t rfl htmem htkmem false).symm
    have ha := hm (compileText lines ((Tag.dependencies reg t true).map Tag.name) true)
    rcases haeq : minifyF (compileText lines ((Tag.dependencies reg t true).map Tag.name) true)
      with _ | a
    · rw [haeq] at ha
      cases ha
    have hb := hm (compileText lines ((Tag.dependencies reg t false).map Tag.name) true)
    rcases hbeq : minifyF (compileText lines ((Tag.dependencies reg t false).map Tag.name) true)
      with _ | b
    · rw [hbeq] at hb
      cases hb
    have hstep : measureTagsGo lines minifyF (n + 1) i regk =
        measureTagsGo lines minifyF n (i + 1)
          (regk.set i { t with size := (a.length : Int) - (b.length : Int) }) := by
      conv_lhs => unfold measureTagsGo
      rw [htik]
      simp only [compile_ugly, hnames1, hnames2, haeq, hbeq]
    have hsize : ({ t with size := (a.length : Int) - (b.length : Int) } : Tag) =
        measuredResize lines minifyF reg t := by
      unfold measuredResize codeMeasuredSize
      rw [haeq, hbeq]
      rfl
    rw [hstep, hsize]
    have hik := ih (i + 1) (regk.set i (measuredResize lines minifyF reg t)) (by omega)
      (forall₂_keyRel_set hk i t _ htik)
      (by
        intro j hj
        rw [List.get?_eq_getElem?, List.getElem?_set_ne (by omega), ← List.get?_eq_getElem?]
        exact hagree j (by omega))
    rw [hik]
    rw [← resizeAfter_set _ _ _ _ htik]

/-- The size C2 claims (raw rendering without the minify transform, here
realized with the identity minifier for the code path and the program's
only transform-free rendering for the claimed path) differs from what the
code computes. -/
def lineC2 : Line :=
  { code := "a=1; ", comment := "note ", tags := [⟨{ name := "X" }, some Mode.OR⟩] }

/-- C2 counterexample: with the identity minifier, `measureTags` on a
registry with the single tag X and one X-tagged commented line records size
6 (the minified rendering drops the comment), while the claimed size —
both compiles rendered without the injected minify or format transforms —
is 15; the code does not compute the claimed size. -/
theorem c2_counterexample :
    Script.measureTags [lineC2] some [{ name := "X" }] =
        some [{ name := "X", size := 6 }] ∧
      claimedMeasuredSize [lineC2] [{ name := "X" }] { name := "X" } = 15 ∧
      ¬ ((6 : Int) = 15) := by
  decide

/-- C2 (corrected): `measureTags` computes every tag's size from
compilations with `compile`'s default flags — the injected minify transform
IS applied (and formatting is not): for the tag at each position,
`size = length(minify(compileRaw(names of dependencies(tag, true)))) -
length(minify(compileRaw(names of dependencies(tag, false))))`, where
`compileRaw` is the uglified (comment-free) rendering; in particular, for a
tag with no required tags and no universal REQUIRED tag defined,
`size = length(minify(compile([T.name]))) - length(minify(compile([])))`.
Stated over the original registry even though the loop threads size
updates, which is sound because sizes do not influence dependency
resolution (`dependencies_names_sim`); the registry is assumed
name-duplicate-free, as every registry `getTags` builds is, and the
minifier total, since a minifier failure aborts `measureTags`. -/
theorem c2_measure_minified_sizes (lines : List Line) (minifyF : String → Option String)
    (hm : ∀ s, (minifyF s).isSome) (reg : List Tag) (hnd : (reg.map Tag.name).Nodup) :
    Script.measureTags lines minifyF reg =
        some (reg.map (measuredResize lines minifyF reg)) ∧
      ∀ t ∈ reg, t.requiredTagNames = [] → findTag reg "REQUIRED" = none →
        codeMeasuredSize lines minifyF reg t =
          (((minifyF (compileText lines [t.name] true)).getD "").length : Int) -
            (((minifyF (compileText lines [] true)).getD "").length : Int) := by
  constructor
  · unfold Script.measureTags
    have h := measureGo_spec lines minifyF hm reg hnd reg.length 0 reg (by omega)
      (List.forall₂_same.2 (fun x _ => rfl)) (fun j _ => rfl)
    rw [h, resizeAfter_zero]
  · intro t ht hreqnil hnoreq
    have h1 : Tag.dependencies reg t true = [t] := by
      rw [dependencies_true_eq]
      show depsGo reg (reg.length + 1 + 1) t [] = [t]
      rw [depsGo_succ, depsReq_none _ _ _ hnoreq, if_neg (List.not_mem_nil t), hreqnil,
        depsNames_nil]
      rfl
    have h2 : Tag.dependencies reg t false = [] := by
      have hgo : depsGo reg (reg.length + 2) t [] = [t] := by
        rw [← dependencies_true_eq]
        exact h1
      rw [dependencies_false_eq, hgo]
      simp
    unfold codeMeasuredSize
    rw [h1, h2]
    simp

/-- Witness for C2 at the concrete single-tag registry, with the identity
minifier. -/
theorem c2_witness :
    Script.measureTags [lineC2] some [{ name := "X" }] =
      some ([{ name := "X" }].map (measuredResize [lineC2] some [{ name := "X" }])) := by
  exact (c2_measure_minified_sizes [lineC2] some (fun s => rfl) [{ name := "X" }]
    (by decide)).1

end Umbra
